import Mathlib

set_option maxRecDepth 8000

/-!
Verification of the contact-matching core of the Minneapolis permits dashboard.

The definitions below are a shallow embedding of the Python sources
`match_plumber_licenses.py` (license-directory extraction, company-name
normalization, fuzzy matching, license merge) and
`create_active_plumbers_with_contact_info.py` (phone extraction from
addresses, heuristic email generation, first-stage contact assembly).
Strings are modelled as lists of characters; Python floats are modelled as
rationals; missing values (None / NaN) are modelled with Option.
-/

abbrev Str := List Char

/-- The apostrophe character. -/
def apos : Char := Char.ofNat 39

/-- The double-quote character. -/
def dquote : Char := Char.ofNat 34

/-- Whitespace as recognised by Python str.split / str.strip and the regex
class backslash-s (ASCII range). -/
def isWs (c : Char) : Bool :=
  c = ' ' || c = '\t' || c = '\n' || c = '\r' || c = Char.ofNat 11 || c = Char.ofNat 12

/-- Word character for regex word boundaries (ASCII model of backslash-w). -/
def isWordCh (c : Char) : Bool := c.isAlphanum || c = '_'

/-- Members of the regex class [-.backslash-s] used as phone separators. -/
def isSepCh (c : Char) : Bool := c = '-' || c = '.' || isWs c

/-- Members of the regex class [a-zA-Z0-9._%+-] (email local part). -/
def isLocalCh (c : Char) : Bool :=
  c.isAlphanum || c = '.' || c = '_' || c = '%' || c = '+' || c = '-'

/-- Members of the regex class [a-zA-Z0-9.-] (email domain part). -/
def isDomCh (c : Char) : Bool := c.isAlphanum || c = '.' || c = '-'

/-- Boolean prefix test on character lists. -/
def isPref : Str → Str → Bool
  | [], _ => true
  | _ :: _, [] => false
  | a :: as, b :: bs => a = b && isPref as bs

/-- Boolean substring test (Python `in` on strings). -/
def isInf (p : Str) : Str → Bool
  | [] => isPref p []
  | c :: cs => isPref p (c :: cs) || isInf p cs

/-- Python str.find: index of the first occurrence of a substring, none
modelling the -1 result. -/
def pyFindAux (pat : Str) : Str → Nat → Option Nat
  | s, i =>
    if isPref pat s then some i
    else match s with
      | [] => none
      | _ :: cs => pyFindAux pat cs (i + 1)

def pyFind (pat s : Str) : Option Nat := pyFindAux pat s 0

/-- Python str.strip(): remove leading and trailing whitespace. -/
def trimWs (s : Str) : Str := ((s.dropWhile isWs).reverse.dropWhile isWs).reverse

/-- Helper for splitWs: accumulates the current word in reverse. -/
def splitWsAux : Str → Str → List Str
  | acc, [] => if acc.isEmpty then [] else [acc.reverse]
  | acc, c :: cs =>
    if isWs c then
      if acc.isEmpty then splitWsAux [] cs else acc.reverse :: splitWsAux [] cs
    else
      splitWsAux (c :: acc) cs

/-- Python str.split() with no argument: split on whitespace runs,
discarding empty pieces. -/
def splitWs (s : Str) : List Str := splitWsAux [] s

/-- Python " ".join on a list of words. -/
def joinWords : List Str → Str
  | [] => []
  | [w] => w
  | w :: ws => w ++ ' ' :: joinWords ws

/-- " ".join(s.split()): collapse whitespace runs to single spaces and trim. -/
def collapse (s : Str) : Str := joinWords (splitWs s)

/-- Fuel-driven body of pyReplace (fuel bounds the scan length so the
definition is structural and kernel-reducible). -/
def replAux (pat rep : Str) : Nat → Str → Str
  | _, [] => []
  | 0, s => s
  | fuel + 1, c :: cs =>
    if isPref pat (c :: cs) then rep ++ replAux pat rep fuel ((c :: cs).drop pat.length)
    else c :: replAux pat rep fuel cs

/-- Python str.replace: replace every non-overlapping occurrence of pat,
scanning left to right. -/
def pyReplace (s pat rep : Str) : Str := replAux pat rep s.length s

/-- Common prefix length of two character lists. -/
def cpl : Str → Str → Nat
  | a :: as, b :: bs => if a = b then cpl as bs + 1 else 0
  | _, _ => 0

/-- All candidate start pairs, enumerated in the lexicographic order in
which find_longest_match discovers maximal matches. -/
def candPairs (a b : Str) : List (Nat × Nat) :=
  (List.range a.length).flatMap (fun i => (List.range b.length).map (fun j => (i, j)))

/-- One step of the longest-match scan: a strictly longer common substring
replaces the best candidate, so the first pair attaining the maximum is
kept. -/
def bmStep (a b : Str) (best : Nat × Nat × Nat) (p : Nat × Nat) : Nat × Nat × Nat :=
  let k := cpl (a.drop p.1) (b.drop p.2)
  if best.2.2 < k then (p.1, p.2, k) else best

/-- difflib SequenceMatcher.find_longest_match on whole strings (no junk):
the longest common substring, as (start in a, start in b, length), ties
resolved towards the smallest start in a and then in b, and (0,0,0) when
there is no common character. -/
def bestMatch (a b : Str) : Nat × Nat × Nat :=
  (candPairs a b).foldl (bmStep a b) (0, 0, 0)

/-- Fuel-driven total-match count of SequenceMatcher.get_matching_blocks:
the longest match splits both strings and the two remaining sides are
processed recursively. -/
def msAux : Nat → Str → Str → Nat
  | 0, _, _ => 0
  | fuel + 1, a, b =>
    let m := bestMatch a b
    if m.2.2 = 0 then 0
    else
      msAux fuel (a.take m.1) (b.take m.2.1) + m.2.2 +
        msAux fuel (a.drop (m.1 + m.2.2)) (b.drop (m.2.1 + m.2.2))

/-- Total number of matched characters across all matching blocks. -/
def matchesSum (a b : Str) : Nat := msAux (a.length + b.length) a b

/-- difflib SequenceMatcher(None, a, b).ratio(), as an exact rational:
2*M/T where M is the matched-character total and T the combined length. -/
def ratioQ (a b : Str) : ℚ :=
  if a.length + b.length = 0 then 1
  else (2 * matchesSum a b : ℚ) / (a.length + b.length : ℚ)

/-! ## NameNormalizer (`normalize_company_name`, match_plumber_licenses.py lines 77-107) -/

/-- The punctuation set removed by the regex [.,\x27"&-] (each occurrence
is replaced by a space). -/
def isPunctCh (c : Char) : Bool :=
  c = '.' || c = ',' || c = apos || c = dquote || c = '&' || c = '-'

/-- The ordered replacement table of normalize_company_name, in Python
dict insertion order. -/
def replPairs : List (Str × Str) :=
  [ (" INCORPORATED".data, " INC".data)
  , (" CORPORATION".data, " CORP".data)
  , (" LIMITED LIABILITY COMPANY".data, " LLC".data)
  , (" LIMITED".data, " LTD".data)
  , (" COMPANY".data, " CO".data)
  , (" AND ".data, (' ' : Char) :: '&' :: [' '])
  , ("PLUMBING".data, "PLUMBING".data)
  , ("HEATING".data, "HEATING".data)
  , ("MECHANICAL".data, "MECHANICAL".data) ]

/-- Core of the normalizer on character lists: uppercase, punctuation to
spaces, the replacement table, whitespace collapse. -/
def normL (s : Str) : Str :=
  collapse
    (replPairs.foldl (fun acc pr => pyReplace acc pr.1 pr.2)
      ((s.map Char.toUpper).map (fun c => if isPunctCh c then ' ' else c)))

/-- normalize_company_name: none models a NaN input (returned as ""). -/
def normalize_company_name : Option String → String
  | none => ""
  | some s => String.mk (normL s.data)

/-! ## SimilarityScorer (`fuzzy_match_companies`, lines 109-145) -/

/-- The legal-suffix tokens stripped for the core-name fallback. -/
def coreWords : List Str :=
  [ "INC".data, "LLC".data, "CORP".data, "LTD".data, "CO".data
  , "COMPANY".data, "CORPORATION".data, "LIMITED".data ]

/-- Sequentially replace each core word by the empty string (a plain
substring replace, as in the source) and strip after each step. -/
def stripCoreL (s : Str) : Str :=
  coreWords.foldl (fun acc w => trimWs (pyReplace acc w [])) s

/-- The similarity after the containment boost: the SequenceMatcher ratio,
raised to at least 0.9 when one normalized name contains the other. -/
def boostedSim (np nl : Str) : ℚ :=
  if isInf np nl || isInf nl np then max (ratioQ np nl) (9/10) else ratioQ np nl

/-- The branch structure of fuzzy_match_companies on already-normalized
names: exact equality, the boosted similarity against the 0.85 threshold,
then the core-name fallback against 0.9. -/
def fuzzyOn (np nl : Str) : Bool × ℚ :=
  if np = nl then (true, 1)
  else if 85/100 ≤ boostedSim np nl then (true, boostedSim np nl)
  else if !(stripCoreL np).isEmpty && !(stripCoreL nl).isEmpty then
    if 9/10 ≤ ratioQ (stripCoreL np) (stripCoreL nl) then
      (true, ratioQ (stripCoreL np) (stripCoreL nl))
    else (false, boostedSim np nl)
  else (false, boostedSim np nl)

/-- fuzzy_match_companies with the default threshold 0.85: returns
(is_match, score) exactly as the source does. -/
def fuzzy_match_companies (permit license : Option String) : Bool × ℚ :=
  fuzzyOn (normalize_company_name permit).data (normalize_company_name license).data

/-! ## EntityMatcher (`match_and_update_contacts` loop, lines 175-187) -/

/-- One extracted license record (extract_license_data_from_pdf row). -/
structure LicenseRecord where
  license_company : String
  license_phone : Option String
  license_email : Option String
deriving DecidableEq

/-- The is_match flag the scorer assigns to one candidate. -/
def matchOf (permit : Option String) (c : LicenseRecord) : Bool :=
  (fuzzy_match_companies permit (some c.license_company)).1

/-- The score the scorer assigns to one candidate. -/
def scoreOf (permit : Option String) (c : LicenseRecord) : ℚ :=
  (fuzzy_match_companies permit (some c.license_company)).2

/-- Candidate scan of match_and_update_contacts: keep the candidate whose
score strictly exceeds the best so far (so the first candidate wins ties),
starting from best_match = None, best_score = 0. -/
def bestCand (permit : Option String) :
    List LicenseRecord → Option LicenseRecord × ℚ → Option LicenseRecord × ℚ
  | [], acc => acc
  | c :: cs, (bm, bs) =>
    if matchOf permit c && decide (bs < scoreOf permit c) then
      bestCand permit cs (some c, scoreOf permit c)
    else bestCand permit cs (bm, bs)

/-- The full scan over the candidate list. -/
def match_loop (permit : Option String) (cands : List LicenseRecord) :
    Option LicenseRecord × ℚ :=
  bestCand permit cands (none, 0)

/-! ## Phone extraction from addresses
(`extract_phone_from_address`, create_active_plumbers_with_contact_info.py
lines 12-32).  The three regex patterns are modelled as deterministic
scanners validated against Python re semantics, including the word
boundaries. -/

/-- Take exactly n digits from the front, returning them and the rest. -/
def takeDigits : Nat → Str → Option (Str × Str)
  | 0, s => some ([], s)
  | _ + 1, [] => none
  | n + 1, c :: cs =>
    if c.isDigit then
      match takeDigits n cs with
      | some (ds, rest) => some (c :: ds, rest)
      | none => none
    else none

/-- Consume one optional separator from the class [-.backslash-s]. -/
def optSep : Str → Str × Str
  | [] => ([], [])
  | c :: cs => if isSepCh c then ([c], cs) else ([], c :: cs)

/-- Word boundary after a word character: end of string or a non-word
character next. -/
def bEndOk : Str → Bool
  | [] => true
  | c :: _ => !isWordCh c

/-- Pattern 1 at one position, with prevWord the wordness of the previous
character: backslash-b then ddd sep? ddd sep? dddd then backslash-b.
Returns the matched substring. -/
def matchP1At (prevWord : Bool) (s : Str) : Option Str :=
  if prevWord then none
  else match takeDigits 3 s with
    | none => none
    | some (a, r) =>
      match takeDigits 3 (optSep r).2 with
      | none => none
      | some (b, r2) =>
        match takeDigits 4 (optSep r2).2 with
        | none => none
        | some (c, r4) =>
          if bEndOk r4 then some (a ++ (optSep r).1 ++ b ++ (optSep r2).1 ++ c) else none

/-- Pattern 2 at one position: backslash-b then literal ( ddd ) ws* ddd
sep? dddd then backslash-b.  Since ( is not a word character, the leading
boundary requires the previous character to be a word character. -/
def matchP2At (prevWord : Bool) (s : Str) : Option Str :=
  if !prevWord then none
  else match s with
    | [] => none
    | c0 :: cs =>
      if c0 = '(' then
        match takeDigits 3 cs with
        | none => none
        | some (a, r) =>
          match r with
          | [] => none
          | c1 :: r1 =>
            if c1 = ')' then
              match takeDigits 3 (r1.dropWhile isWs) with
              | none => none
              | some (b, r3) =>
                match takeDigits 4 (optSep r3).2 with
                | none => none
                | some (c, r5) =>
                  if bEndOk r5 then
                    some (['('] ++ a ++ [')'] ++ r1.takeWhile isWs ++ b ++ (optSep r3).1 ++ c)
                  else none
            else none
      else none

/-- Pattern 3 at one position: backslash-b then exactly ten digits then
backslash-b. -/
def matchP3At (prevWord : Bool) (s : Str) : Option Str :=
  if prevWord then none
  else match takeDigits 10 s with
    | none => none
    | some (ds, r) => if bEndOk r then some ds else none

/-- re.search: scan left to right, tracking whether the previous character
is a word character, and return the first match. -/
def searchPat (matchAt : Bool → Str → Option Str) : Bool → Str → Option Str
  | pw, [] => matchAt pw []
  | pw, c :: cs =>
    match matchAt pw (c :: cs) with
    | some m => some m
    | none => searchPat matchAt (isWordCh c) cs

def findP1 (s : Str) : Option Str := searchPat matchP1At false s

def findP2 (s : Str) : Option Str := searchPat matchP2At false s

def findP3 (s : Str) : Option Str := searchPat matchP3At false s

/-- The consistent output format f"({digits[:3]}) {digits[3:6]}-{digits[6:]}". -/
def fmtPhone (ds : Str) : Str :=
  '(' :: ds.take 3 ++ ')' :: ' ' :: (ds.drop 3).take 3 ++ '-' :: ds.drop 6

/-- The pattern loop of extract_phone_from_address: for each pattern in
order, if it matches, keep its digits; return the formatted number when
there are exactly ten digits, otherwise fall through to the next pattern. -/
def tryPatterns : List (Str → Option Str) → Str → Option String
  | [], _ => none
  | p :: ps, l =>
    match p l with
    | some m =>
      if (m.filter Char.isDigit).length = 10 then
        some (String.mk (fmtPhone (m.filter Char.isDigit)))
      else tryPatterns ps l
    | none => tryPatterns ps l

/-- extract_phone_from_address; none models a NaN address. -/
def extract_phone_from_address : Option String → Option String
  | none => none
  | some a => tryPatterns [findP1, findP2, findP3] a.data

/-- The first phone-shaped match, in the pattern priority order of the
source (pattern 1, then 2, then 3). -/
def firstPhoneMatch (l : Str) : Option Str :=
  match findP1 l with
  | some m => some m
  | none =>
    match findP2 l with
    | some m => some m
    | none => findP3 l

/-! ## Email generation (`generate_email`, lines 34-75) -/

/-- Python truthiness of an optional string: None and "" are falsy. -/
def pyTruthy : Option String → Bool
  | none => false
  | some s => !s.data.isEmpty

/-- The generic suffixes stripped from the domain candidate, in order. -/
def emailSuffixes : List Str :=
  [ "inc".data, "llc".data, "corp".data, "corporation".data, "company".data
  , "co".data, "ltd".data, "plumbing".data, "mechanical".data, "heating".data
  , "cooling".data, "hvac".data, "services".data, "service".data ]

/-- The denylist of overly generic domain candidates. -/
def genericDomains : List Str :=
  [ "center".data, "point".data, "urban".data, "city".data ]

/-- The trust/estate/entity tokens that veto generation. -/
def entityTokens : List Str :=
  [ "trust".data, "estate".data, "llc".data, "inc".data ]

/-- Drop a suffix from the end of a list if present (re.sub with an
end-anchored literal pattern). -/
def dropSuffix (suf s : Str) : Str :=
  if isPref suf.reverse s.reverse then s.take (s.length - suf.length) else s

/-- The domain candidate: lowercase, keep word characters and dashes
(the two re.sub calls), then strip each generic suffix in order. -/
def domainCandidate (company : Str) : Str :=
  emailSuffixes.foldl (fun acc suf => dropSuffix suf acc)
    ((company.map Char.toLower).filter (fun c => isWordCh c || c = '-'))

/-- The contact person split into whitespace-separated parts. -/
def nameParts (person : String) : List Str := splitWs person.data

/-- The trust/estate/entity veto: a token occurring in the lowercased
contact person. -/
def hasEntityToken (person : String) : Bool :=
  entityTokens.any (fun w => isInf w (person.data.map Char.toLower))

/-- generate_email: none inputs model NaN. The city argument is unused in
the source and omitted here. -/
def generate_email (company contact : Option String) : Option String :=
  match company, contact with
  | some comp, some person =>
    if (domainCandidate comp.data).length < 3
        || genericDomains.contains (domainCandidate comp.data) then none
    else if 2 ≤ (nameParts person).length then
      if hasEntityToken person then none
      else some (String.mk (((nameParts person).headI).map Char.toLower ++ '.' ::
        ((nameParts person).getLastI).map Char.toLower ++ '@' ::
        domainCandidate comp.data ++ ".com".data))
    else some (String.mk ("info@".data ++ domainCandidate comp.data ++ ".com".data))
  | _, _ => none

/-! ## DirectoryExtractor (`extract_license_data_from_pdf` per-line logic,
match_plumber_licenses.py lines 29-72) -/

/-- The phone pattern of the extractor, ddd-ddd-dddd with no word
boundaries; match at one position. -/
def pdfPhoneAt (s : Str) : Option Str :=
  match takeDigits 3 s with
  | none => none
  | some (a, r) =>
    match r with
    | [] => none
    | h1 :: r1 =>
      if h1 = '-' then
        match takeDigits 3 r1 with
        | none => none
        | some (b, r2) =>
          match r2 with
          | [] => none
          | h2 :: r3 =>
            if h2 = '-' then
              match takeDigits 4 r3 with
              | none => none
              | some (c, _) => some (a ++ '-' :: b ++ '-' :: c)
            else none
      else none

/-- Leftmost search for the extractor phone pattern. -/
def pdfPhoneSearch : Str → Option Str
  | [] => none
  | c :: cs =>
    match pdfPhoneAt (c :: cs) with
    | some m => some m
    | none => pdfPhoneSearch cs

/-- Email pattern at one position: a maximal run of local characters, an
@ sign, then a domain ending in a dot followed by at least two letters;
the greedy semantics pick the last eligible dot of the domain run. -/
def emailAt (s : Str) : Option Str :=
  let lcl := s.takeWhile isLocalCh
  if lcl.isEmpty then none
  else
    match s.drop lcl.length with
    | [] => none
    | c0 :: rest =>
      if c0 = '@' then
        let dom := rest.takeWhile isDomCh
        let pick := (List.range dom.length).reverse.find? (fun m =>
          decide (1 ≤ m) && decide (dom.getD m ' ' = '.') &&
            decide (2 ≤ ((dom.drop (m + 1)).takeWhile Char.isAlpha).length))
        match pick with
        | some m =>
          some (lcl ++ '@' :: dom.take (m + 1) ++ (dom.drop (m + 1)).takeWhile Char.isAlpha)
        | none => none
      else none

/-- Leftmost search for the email pattern. -/
def emailSearch : Str → Option Str
  | [] => none
  | c :: cs =>
    match emailAt (c :: cs) with
    | some m => some m
    | none => emailSearch cs

/-- The street-address pattern digits+ whitespace+ capital, matched at one
position. -/
def addrAt (s : Str) : Bool :=
  match s with
  | [] => false
  | c :: _ =>
    c.isDigit &&
      (let r1 := s.dropWhile Char.isDigit
       match r1 with
       | [] => false
       | w :: _ =>
         isWs w &&
           (match r1.dropWhile isWs with
            | [] => false
            | u :: _ => u.isUpper))

/-- Start index of the first street-address match. -/
def addrSearchAux : Nat → Str → Option Nat
  | _, [] => none
  | i, c :: cs => if addrAt (c :: cs) then some i else addrSearchAux (i + 1) cs

def addrSearch (s : Str) : Option Nat := addrSearchAux 0 s

/-- Python slice s[:k] where k may be the -1 returned by str.find: a none
index models -1, which slices off the final character. -/
def pySliceTo (s : Str) : Option Nat → Str
  | some k => s.take k
  | none => s.take (s.length - 1)

/-- Helper for collapseRuns: the flag records whether the scan is inside a
whitespace run whose space has already been emitted. -/
def collapseRunsF : Bool → Str → Str
  | _, [] => []
  | inRun, c :: cs =>
    if isWs c then
      if inRun then collapseRunsF true cs else ' ' :: collapseRunsF true cs
    else c :: collapseRunsF false cs

/-- Whitespace-run collapse re.sub(r"backslash-s+", " ", s): every maximal
whitespace run becomes one space (ends included). -/
def collapseRuns (s : Str) : Str := collapseRunsF false s

/-- The first extractor-pattern phone on the line. -/
def linePhone (l : Str) : Option Str := pdfPhoneSearch l

/-- The first email on the line, lowercased. -/
def lineEmail (l : Str) : Option Str := (emailSearch l).map (List.map Char.toLower)

/-- The stripped text following the APPROVED status marker. -/
def lineAfterApproved (l : Str) (idx : Nat) : Str := trimWs (l.drop (idx + 8))

/-- The company-name span: up to the first street-address match, else up
to the first occurrence of the extracted phone, else of the extracted
email (where a failed find chops the final character, as the Python slice
with -1 does), else the whole remaining text. -/
def lineCompanyRaw (l : Str) (idx : Nat) : Str :=
  match addrSearch (lineAfterApproved l idx) with
  | some k => trimWs ((lineAfterApproved l idx).take k)
  | none =>
    match linePhone l with
    | some p => trimWs (pySliceTo (lineAfterApproved l idx) (pyFind p (lineAfterApproved l idx)))
    | none =>
      match lineEmail l with
      | some e =>
        trimWs (pySliceTo (lineAfterApproved l idx) (pyFind e (lineAfterApproved l idx)))
      | none => trimWs (lineAfterApproved l idx)

/-- The company name with inner whitespace runs collapsed. -/
def lineCompany (l : Str) (idx : Nat) : Str := collapseRuns (lineCompanyRaw l idx)

/-- The per-line body of extract_license_data_from_pdf: header skip, the
L101 marker test, phone/email extraction, company-name location after
APPROVED, and the final emission guard. -/
def extract_license_line (line : String) : Option LicenseRecord :=
  if isInf "License Type".data line.data && isInf "Applicant Name".data line.data then none
  else if !isPref "L101".data (trimWs line.data) then none
  else
    match pyFind "APPROVED".data line.data with
    | none => none
    | some idx =>
      if 0 < idx then
        if !(lineCompany line.data idx).isEmpty &&
            ((linePhone line.data).isSome || (lineEmail line.data).isSome) then
          some { license_company := String.mk (lineCompany line.data idx)
               , license_phone := (linePhone line.data).map String.mk
               , license_email := (lineEmail line.data).map String.mk }
        else none
      else none

/-! ## Stage one: create_active_plumbers_with_contact (lines 110-146) -/

/-- One row of the permit-side input, with NaN-able fields as Option. -/
structure PlumberRow where
  company : Option String
  contact : Option String
  city : Option String
  address : Option String
deriving DecidableEq

/-- The per-entity contact state after a stage of the pipeline. -/
structure ContactRow where
  company : Option String
  phone : Option String
  email : Option String
  source : Option String
  confidence : String
deriving DecidableEq

/-- search_existing_contact_data: the source is a placeholder that always
returns (None, None). -/
def search_existing_contact_data (_company : Option String) :
    Option String × Option String := (none, none)

/-- Contact_Confidence assignment (lines 141-146). -/
def contact_confidence (source : Option String) : String :=
  if source = some "Existing Database" then "High"
  else if source = some "Extracted from Address" then "Medium"
  else if source = some "Generated" then "Low"
  else "None"

/-- The phone branch of the stage-one loop body (lines 117-122): the
existing database wins, then the address-extracted phone; the second
component is the Contact_Info_Source set by the branch. -/
def stageOnePhone (r : PlumberRow) : Option String × Option String :=
  if pyTruthy (search_existing_contact_data r.company).1 then
    ((search_existing_contact_data r.company).1, some "Existing Database")
  else if pyTruthy (extract_phone_from_address r.address) then
    (extract_phone_from_address r.address, some "Extracted from Address")
  else (none, none)

/-- The email branch of the stage-one loop body (lines 124-138), given the
source set by the phone branch. -/
def stageOneEmail (r : PlumberRow) (psrc : Option String) : Option String × Option String :=
  if pyTruthy (search_existing_contact_data r.company).2 then
    ((search_existing_contact_data r.company).2,
      if psrc ≠ some "Existing Database" then some "Existing Database" else psrc)
  else if pyTruthy (generate_email r.company r.contact) then
    (generate_email r.company r.contact, if psrc = none then some "Generated" else psrc)
  else (none, psrc)

/-- The per-row body of create_active_plumbers_with_contact: phone from
the existing database or the address, email from the existing database or
the generator, the source label, and the derived confidence. -/
def stageOne (r : PlumberRow) : ContactRow :=
  { company := r.company
  , phone := (stageOnePhone r).1
  , email := (stageOneEmail r (stageOnePhone r).2).1
  , source := (stageOneEmail r (stageOnePhone r).2).2
  , confidence := contact_confidence (stageOneEmail r (stageOnePhone r).2).2 }

/-! ## Stage two: the license merge of match_and_update_contacts
(lines 188-224) -/

/-- The License_Phone column value: the best match supplies its phone when
that phone is truthy, otherwise the column stays empty. -/
def licPhoneOf (row : ContactRow) (cands : List LicenseRecord) : Option String :=
  match (match_loop row.company cands).1 with
  | some r => if pyTruthy r.license_phone then r.license_phone else none
  | none => none

/-- The License_Email column value, filled the same way. -/
def licEmailOf (row : ContactRow) (cands : List LicenseRecord) : Option String :=
  match (match_loop row.company cands).1 with
  | some r => if pyTruthy r.license_email then r.license_email else none
  | none => none

/-- Contact_Info_Source after the license merge (lines 215-218). -/
def stageTwoSource (row : ContactRow) (cands : List LicenseRecord) : Option String :=
  if (licPhoneOf row cands).isSome || (licEmailOf row cands).isSome then
    some "Licensed Data"
  else row.source

/-- The per-row license merge: run the candidate scan, fill the
License_Phone / License_Email columns from the best match when truthy,
then overwrite Phone_Number with License_Phone (line 210), fall back on
the prior email only for Email (lines 211-212), and update the source and
confidence labels. -/
def stageTwo (row : ContactRow) (cands : List LicenseRecord) : ContactRow :=
  { company := row.company
  , phone := licPhoneOf row cands
  , email := if (licEmailOf row cands).isSome then licEmailOf row cands else row.email
  , source := stageTwoSource row cands
  , confidence :=
      if stageTwoSource row cands = some "Licensed Data" then "High" else row.confidence }

/-! ## Concrete fixtures used by witnesses and counterexamples -/

/-- A license record whose company name equals its permit-side name. -/
def recA : LicenseRecord :=
  { license_company := "ACME INC", license_phone := some "612-555-1212"
  , license_email := none }

/-- A permit row whose address carries an extractable phone number. -/
def rowEx : PlumberRow :=
  { company := some "Acme Mechanical", contact := some "Bob Jones"
  , city := some "Mpls", address := some "612-555-1212 MAIN ST" }

/-- A permit row with no address phone, matching recA by company name. -/
def rowA : PlumberRow :=
  { company := some "ACME INC", contact := some "Bob Jones"
  , city := some "Mpls", address := none }

/-- The directory line of the specification scenario. -/
def lineEx : String :=
  "L101 2025 APPROVED XYZ MECHANICAL INC 123 MAIN ST 612-555-1212 info@xyz.com"

/-- The record the extractor produces from lineEx. -/
def recEx : LicenseRecord :=
  { license_company := "XYZ MECHANICAL INC", license_phone := some "612-555-1212"
  , license_email := some "info@xyz.com" }

/-- An email-only license record: the extractor emits such records when a
line carries an email but no phone. -/
def recB : LicenseRecord :=
  { license_company := "ACME INC", license_phone := none
  , license_email := some "info@acme.com" }

/-- A permit row whose address carries an extractable phone and whose
company name matches recB exactly. -/
def rowB : PlumberRow :=
  { company := some "ACME INC", contact := some "Bob Jones"
  , city := some "Mpls", address := some "612-555-1212 MAIN ST" }

/-- The input of the normalization scenario, with its apostrophe. -/
def bobsName : String :=
  String.mk ['B', 'o', 'b', apos, 's', ' ', 'P', 'l', 'u', 'm', 'b', 'i', 'n', 'g',
    ',', ' ', 'I', 'n', 'c', '.']

/-! ## Auxiliary lemmas -/

theorem cpl_le_left : ∀ x y : Str, cpl x y ≤ x.length := by
  intro x
  induction x with
  | nil => intro y; cases y <;> simp [cpl]
  | cons a as ih =>
    intro y
    cases y with
    | nil => simp [cpl]
    | cons b bs =>
      by_cases h : a = b
      · simpa [cpl, h] using ih bs
      · simp [cpl, h]

theorem cpl_le_right : ∀ x y : Str, cpl x y ≤ y.length := by
  intro x
  induction x with
  | nil => intro y; cases y <;> simp [cpl]
  | cons a as ih =>
    intro y
    cases y with
    | nil => simp [cpl]
    | cons b bs =>
      by_cases h : a = b
      · simpa [cpl, h] using Nat.succ_le_succ (ih bs)
      · simp [cpl, h]

theorem cpl_self : ∀ x : Str, cpl x x = x.length := by
  intro x
  induction x with
  | nil => simp [cpl]
  | cons a as ih => simp [cpl, ih]

theorem mem_candPairs {a b : Str} {p : Nat × Nat} :
    p ∈ candPairs a b ↔ p.1 < a.length ∧ p.2 < b.length := by
  cases p with
  | mk i j => simp [candPairs]

/-- The running best length only grows along the scan. -/
theorem bmFold_ge_init (a b : Str) :
    ∀ (ps : List (Nat × Nat)) (best : Nat × Nat × Nat),
      best.2.2 ≤ ((ps.foldl (bmStep a b) best)).2.2 := by
  intro ps
  induction ps with
  | nil => intro best; simp
  | cons p ps ih =>
    intro best
    refine le_trans ?_ (ih (bmStep a b best p))
    simp only [bmStep]
    split
    · next h => exact le_of_lt h
    · exact le_refl _

/-- Every scanned pair is dominated by the final best length. -/
theorem bmFold_ge_mem (a b : Str) :
    ∀ (ps : List (Nat × Nat)) (best : Nat × Nat × Nat) (p : Nat × Nat), p ∈ ps →
      cpl (a.drop p.1) (b.drop p.2) ≤ ((ps.foldl (bmStep a b) best)).2.2 := by
  intro ps
  induction ps with
  | nil => intro best p hp; simp at hp
  | cons q ps ih =>
    intro best p hp
    rcases List.mem_cons.mp hp with h | h
    · subst h
      refine le_trans ?_ (bmFold_ge_init a b ps (bmStep a b best p))
      simp only [bmStep]
      split
      · exact le_refl _
      · next h => exact le_of_not_lt h
    · exact ih _ p h

/-- The final best is either untouched or records a scanned pair together
with its exact common-prefix length. -/
theorem bmFold_sound (a b : Str) :
    ∀ (ps : List (Nat × Nat)) (best : Nat × Nat × Nat),
      (ps.foldl (bmStep a b) best) = best ∨
        ∃ p ∈ ps, (ps.foldl (bmStep a b) best) =
          (p.1, p.2, cpl (a.drop p.1) (b.drop p.2)) := by
  intro ps
  induction ps with
  | nil => intro best; left; rfl
  | cons q ps ih =>
    intro best
    rw [List.foldl_cons]
    rcases ih (bmStep a b best q) with h | h
    · rw [h]
      simp only [bmStep]
      split
      · right; exact ⟨q, List.mem_cons_self _ _, rfl⟩
      · left; rfl
    · obtain ⟨p, hp, heq⟩ := h
      rw [heq]
      right; exact ⟨p, List.mem_cons_of_mem _ hp, rfl⟩

theorem bestMatch_max (a b : Str) {i j : Nat} (hi : i < a.length) (hj : j < b.length) :
    cpl (a.drop i) (b.drop j) ≤ (bestMatch a b).2.2 :=
  bmFold_ge_mem a b (candPairs a b) (0, 0, 0) (i, j) (mem_candPairs.mpr ⟨hi, hj⟩)

theorem bestMatch_sound (a b : Str) :
    bestMatch a b = (0, 0, 0) ∨
      ((bestMatch a b).1 < a.length ∧ (bestMatch a b).2.1 < b.length ∧
        (bestMatch a b).2.2 =
          cpl (a.drop (bestMatch a b).1) (b.drop (bestMatch a b).2.1)) := by
  rcases bmFold_sound a b (candPairs a b) (0, 0, 0) with h | h
  · exact Or.inl h
  · obtain ⟨p, hp, heq⟩ := h
    have hb := mem_candPairs.mp hp
    right
    rw [bestMatch, heq]
    exact ⟨hb.1, hb.2, rfl⟩

/-- On the diagonal the longest match is the whole string. -/
theorem bestMatch_self (x : Str) (hx : x ≠ []) :
    (bestMatch x x).1 = 0 ∧ (bestMatch x x).2.1 = 0 ∧ (bestMatch x x).2.2 = x.length := by
  have hlen : 0 < x.length := List.length_pos.mpr hx
  have hmax : x.length ≤ (bestMatch x x).2.2 := by
    have := bestMatch_max x x hlen hlen
    simpa [cpl_self] using this
  rcases bestMatch_sound x x with h | h
  · exfalso
    rw [h] at hmax
    have h0 : ((0, 0, 0) : Nat × Nat × Nat).2.2 = 0 := rfl
    rw [h0] at hmax
    omega
  · obtain ⟨h1, h2, h3⟩ := h
    have hle : cpl (x.drop (bestMatch x x).1) (x.drop (bestMatch x x).2.1) ≤
        x.length - (bestMatch x x).1 := by
      have := cpl_le_left (x.drop (bestMatch x x).1) (x.drop (bestMatch x x).2.1)
      simpa using this
    have hle2 : cpl (x.drop (bestMatch x x).1) (x.drop (bestMatch x x).2.1) ≤
        x.length - (bestMatch x x).2.1 := by
      have := cpl_le_right (x.drop (bestMatch x x).1) (x.drop (bestMatch x x).2.1)
      simpa using this
    have hp1 : (bestMatch x x).1 = 0 := by omega
    have hp2 : (bestMatch x x).2.1 = 0 := by omega
    refine ⟨hp1, hp2, ?_⟩
    rw [h3, hp1, hp2]
    simp [cpl_self]

theorem msAux_nil_left : ∀ fuel, msAux fuel [] [] = 0 := by
  intro fuel
  cases fuel with
  | zero => rfl
  | succ n => rfl

theorem matchesSum_self (x : Str) : matchesSum x x = x.length := by
  rcases eq_or_ne x [] with hx | hx
  · subst hx; rfl
  · obtain ⟨h1, h2, h3⟩ := bestMatch_self x hx
    obtain ⟨n, hlen⟩ : ∃ n, x.length = n + 1 := by
      cases x with
      | nil => simp at hx
      | cons c cs => exact ⟨cs.length, rfl⟩
    rw [matchesSum, hlen]
    have hsum : n + 1 + (n + 1) = (n + n + 1) + 1 := by omega
    rw [hsum, msAux]
    simp only [h1, h2, h3]
    rw [if_neg (by omega)]
    simp only [List.take_zero, Nat.zero_add, List.drop_length, msAux_nil_left]
    omega

theorem ratioQ_self (x : Str) : ratioQ x x = 1 := by
  rw [ratioQ]
  by_cases h : x.length + x.length = 0
  · rw [if_pos h]
  · rw [if_neg h, matchesSum_self]
    have hx : (0 : ℚ) < (x.length : ℚ) + (x.length : ℚ) := by
      have h2 : 0 < x.length + x.length := Nat.pos_of_ne_zero h
      exact_mod_cast h2
    rw [div_eq_one_iff_eq (ne_of_gt hx)]
    ring

theorem ratioQ_nonneg (a b : Str) : 0 ≤ ratioQ a b := by
  rw [ratioQ]
  split
  · norm_num
  · apply div_nonneg
    · positivity
    · positivity

theorem boostedSim_nonneg (np nl : Str) : 0 ≤ boostedSim np nl := by
  rw [boostedSim]
  split
  · exact le_trans (ratioQ_nonneg np nl) (le_max_left _ _)
  · exact ratioQ_nonneg np nl

theorem fuzzyOn_score_nonneg (np nl : Str) : 0 ≤ (fuzzyOn np nl).2 := by
  rw [fuzzyOn]
  generalize hB : boostedSim np nl = B
  generalize hC : ratioQ (stripCoreL np) (stripCoreL nl) = C
  have h1 : 0 ≤ B := hB ▸ boostedSim_nonneg np nl
  have h2 : 0 ≤ C := hC ▸ ratioQ_nonneg _ _
  split_ifs
  · norm_num
  · exact h1
  · exact h2
  · exact h1
  · exact h1

theorem score_nonneg (p l : Option String) : 0 ≤ (fuzzy_match_companies p l).2 :=
  fuzzyOn_score_nonneg _ _

/-- The is_match flag is equivalent to the returned score clearing the
0.85 threshold: every accepting path returns at least 0.85 and the
rejecting path returns the boosted similarity, which is below 0.85. -/
theorem fuzzyOn_match_iff (np nl : Str) :
    (fuzzyOn np nl).1 = true ↔ 85/100 ≤ (fuzzyOn np nl).2 := by
  rw [fuzzyOn]
  generalize hB : boostedSim np nl = B
  generalize hC : ratioQ (stripCoreL np) (stripCoreL nl) = C
  split_ifs with g1 g2 g3 g4
  · dsimp only; norm_num
  · dsimp only; simpa using g2
  · dsimp only
    constructor
    · intro _; linarith
    · intro _; rfl
  · dsimp only
    constructor
    · intro h; exact absurd h (by simp)
    · intro h; exact absurd h g2
  · dsimp only
    constructor
    · intro h; exact absurd h (by simp)
    · intro h; exact absurd h g2

theorem match_iff_score (p l : Option String) :
    (fuzzy_match_companies p l).1 = true ↔ 85/100 ≤ (fuzzy_match_companies p l).2 :=
  fuzzyOn_match_iff _ _

theorem matchOf_iff_score (p : Option String) (c : LicenseRecord) :
    matchOf p c = true ↔ 85/100 ≤ scoreOf p c :=
  match_iff_score _ _

/-- The scan returns no match exactly when no candidate passes the update
test against the running best score. -/
theorem bestCand_none_iff (p : Option String) :
    ∀ (cs : List LicenseRecord) (bm : Option LicenseRecord) (bs : ℚ),
      (bestCand p cs (bm, bs)).1 = none ↔
        bm = none ∧ ∀ c ∈ cs, ¬(matchOf p c = true ∧ bs < scoreOf p c) := by
  intro cs
  induction cs with
  | nil =>
    intro bm bs
    simp [bestCand]
  | cons c cs ih =>
    intro bm bs
    rw [bestCand]
    by_cases h : (matchOf p c && decide (bs < scoreOf p c)) = true
    · rw [if_pos h]
      rw [ih]
      simp only [Bool.and_eq_true, decide_eq_true_eq] at h
      constructor
      · rintro ⟨h1, -⟩
        exact absurd h1 (by simp)
      · rintro ⟨-, h2⟩
        exact absurd ⟨h.1, h.2⟩ (h2 c (List.mem_cons_self _ _))
    · rw [if_neg h]
      rw [ih]
      simp only [Bool.and_eq_true, decide_eq_true_eq] at h
      constructor
      · rintro ⟨h1, h2⟩
        refine ⟨h1, ?_⟩
        intro x hx
        rcases List.mem_cons.mp hx with rfl | hx
        · exact h
        · exact h2 x hx
      · rintro ⟨h1, h2⟩
        exact ⟨h1, fun x hx => h2 x (List.mem_cons_of_mem _ hx)⟩

/-- The final score dominates the initial score and the score of every
matching candidate. -/
theorem bestCand_ge (p : Option String) :
    ∀ (cs : List LicenseRecord) (bm : Option LicenseRecord) (bs : ℚ),
      bs ≤ (bestCand p cs (bm, bs)).2 ∧
        ∀ c ∈ cs, matchOf p c = true → scoreOf p c ≤ (bestCand p cs (bm, bs)).2 := by
  intro cs
  induction cs with
  | nil =>
    intro bm bs
    constructor
    · simp [bestCand]
    · intro c hc
      simp at hc
  | cons c cs ih =>
    intro bm bs
    rw [bestCand]
    by_cases h : (matchOf p c && decide (bs < scoreOf p c)) = true
    · rw [if_pos h]
      simp only [Bool.and_eq_true, decide_eq_true_eq] at h
      obtain ⟨ih1, ih2⟩ := ih (some c) (scoreOf p c)
      constructor
      · exact le_trans (le_of_lt h.2) ih1
      · intro x hx hm
        rcases List.mem_cons.mp hx with rfl | hx
        · exact ih1
        · exact ih2 x hx hm
    · rw [if_neg h]
      simp only [Bool.and_eq_true, decide_eq_true_eq] at h
      obtain ⟨ih1, ih2⟩ := ih bm bs
      constructor
      · exact ih1
      · intro x hx hm
        rcases List.mem_cons.mp hx with rfl | hx
        · have : ¬ bs < scoreOf p x := fun hlt => h ⟨hm, hlt⟩
          exact le_trans (le_of_not_lt this) ih1
        · exact ih2 x hx hm

/-- The scan either keeps its accumulator or returns the first candidate
attaining the final score, which is a matching candidate strictly above
the initial score and strictly above every earlier candidate. -/
theorem bestCand_cases (p : Option String) :
    ∀ (cs : List LicenseRecord) (bm : Option LicenseRecord) (bs : ℚ),
      bestCand p cs (bm, bs) = (bm, bs) ∨
        ∃ i, ∃ h : i < cs.length,
          bestCand p cs (bm, bs) = (some (cs.get ⟨i, h⟩), scoreOf p (cs.get ⟨i, h⟩)) ∧
          matchOf p (cs.get ⟨i, h⟩) = true ∧
          bs < scoreOf p (cs.get ⟨i, h⟩) ∧
          ∀ j (hj : j < i), scoreOf p (cs.get ⟨j, Nat.lt_trans hj h⟩) <
            scoreOf p (cs.get ⟨i, h⟩) := by
  intro cs
  induction cs with
  | nil =>
    intro bm bs
    left
    rfl
  | cons c cs ih =>
    intro bm bs
    rw [bestCand]
    by_cases h : (matchOf p c && decide (bs < scoreOf p c)) = true
    · rw [if_pos h]
      simp only [Bool.and_eq_true, decide_eq_true_eq] at h
      rcases ih (some c) (scoreOf p c) with h2 | h2
      · right
        refine ⟨0, Nat.succ_pos _, ?_, ?_, ?_, ?_⟩
        · simpa using h2
        · simpa using h.1
        · simpa using h.2
        · intro j hj
          omega
      · obtain ⟨i, hi, heq, hm, hs, hall⟩ := h2
        right
        refine ⟨i + 1, Nat.succ_lt_succ hi, ?_, ?_, ?_, ?_⟩
        · simpa using heq
        · simpa using hm
        · simpa using lt_trans h.2 hs
        · intro j hj
          cases j with
          | zero => simpa using hs
          | succ j =>
            have hj2 : j < i := Nat.lt_of_succ_lt_succ hj
            simpa using hall j hj2
    · rw [if_neg h]
      simp only [Bool.and_eq_true, decide_eq_true_eq] at h
      rcases ih bm bs with h2 | h2
      · left
        exact h2
      · obtain ⟨i, hi, heq, hm, hs, hall⟩ := h2
        right
        refine ⟨i + 1, Nat.succ_lt_succ hi, ?_, ?_, ?_, ?_⟩
        · simpa using heq
        · simpa using hm
        · simpa using hs
        · intro j hj
          cases j with
          | zero =>
            by_cases hmc : matchOf p c = true
            · have hsc : ¬ bs < scoreOf p c := fun hlt => h ⟨hmc, hlt⟩
              have := le_of_not_lt hsc
              simpa using lt_of_le_of_lt this hs
            · have h85 : scoreOf p c < 85/100 := by
                rcases lt_or_le (scoreOf p c) (85/100) with hlt | hge
                · exact hlt
                · exact absurd ((matchOf_iff_score p c).mpr hge) hmc
              have h85b : 85/100 ≤ scoreOf p (cs.get ⟨i, hi⟩) :=
                (matchOf_iff_score p _).mp hm
              simpa using lt_of_lt_of_le h85 h85b
          | succ j =>
            have hj2 : j < i := Nat.lt_of_succ_lt_succ hj
            simpa using hall j hj2

/-! ## Claim theorems -/

/-- C1: for every permit-side summary and candidate list, the candidate
scan of match_and_update_contacts returns no match exactly when every
candidate scores below 0.85 (in particular when the list is empty); when
it returns a match, the recorded score is the score of the returned
candidate, it is the global maximum of the scores over all candidates,
and the returned candidate is the first in list order to attain it (all
earlier candidates score strictly lower). -/
theorem matcher_global_max (p : Option String) (cands : List LicenseRecord) :
    ((match_loop p cands).1 = none ↔ ∀ c ∈ cands, scoreOf p c < 85/100) ∧
    ∀ r, (match_loop p cands).1 = some r →
      (match_loop p cands).2 = scoreOf p r ∧
      (∀ c ∈ cands, scoreOf p c ≤ (match_loop p cands).2) ∧
      ∃ i, ∃ h : i < cands.length,
        cands.get ⟨i, h⟩ = r ∧
        scoreOf p (cands.get ⟨i, h⟩) = (match_loop p cands).2 ∧
        ∀ j (hj : j < i), scoreOf p (cands.get ⟨j, Nat.lt_trans hj h⟩) <
          (match_loop p cands).2 := by
  constructor
  · rw [match_loop, bestCand_none_iff]
    constructor
    · rintro ⟨-, h2⟩ c hc
      rcases lt_or_le (scoreOf p c) (85/100) with hlt | hge
      · exact hlt
      · exfalso
        exact h2 c hc ⟨(matchOf_iff_score p c).mpr hge, by linarith⟩
    · intro h
      refine ⟨rfl, ?_⟩
      rintro c hc ⟨hm, -⟩
      have hge := (matchOf_iff_score p c).mp hm
      have hlt := h c hc
      linarith
  · intro r hr
    rcases bestCand_cases p cands none 0 with h | h
    · rw [match_loop, h] at hr
      simp at hr
    · obtain ⟨i, hi, heq, hm, hs, hall⟩ := h
      rw [match_loop] at hr
      rw [heq] at hr
      simp only [Option.some.injEq] at hr
      have hscore : (match_loop p cands).2 = scoreOf p (cands.get ⟨i, hi⟩) := by
        rw [match_loop, heq]
      refine ⟨?_, ?_, ?_⟩
      · rw [hscore, hr]
      · intro c hc
        rw [hscore]
        by_cases hmc : matchOf p c = true
        · have h2 := (bestCand_ge p cands none 0).2 c hc hmc
          rw [heq] at h2
          exact h2
        · have h85 : scoreOf p c < 85/100 := by
            rcases lt_or_le (scoreOf p c) (85/100) with hlt | hge
            · exact hlt
            · exact absurd ((matchOf_iff_score p c).mpr hge) hmc
          have hge2 : 85/100 ≤ scoreOf p (cands.get ⟨i, hi⟩) :=
            (matchOf_iff_score p _).mp hm
          linarith
      · refine ⟨i, hi, hr, ?_, ?_⟩
        · rw [hscore]
        · intro j hj
          rw [hscore]
          exact hall j hj

/-- Witness for C1 at a concrete input: a single exactly-matching
candidate is returned with the maximal score. -/
theorem matcher_global_max_witness :
    (match_loop (some "ACME INC") [recA]).2 = scoreOf (some "ACME INC") recA ∧
    scoreOf (some "ACME INC") recA ≤ (match_loop (some "ACME INC") [recA]).2 := by
  have h := (matcher_global_max (some "ACME INC") [recA]).2 recA (by decide)
  exact ⟨h.1, h.2.1 recA (List.mem_cons_self _ _)⟩

/-- C7: a resolved contact whose source label is Generated never carries a
phone: the Generated label is only assigned when neither the existing
database nor the address extraction produced a phone, and the email
generator supplies no phone field at all. -/
theorem generated_source_has_no_phone (r : PlumberRow) :
    (stageOne r).source = some "Generated" → (stageOne r).phone = none := by
  intro h
  have hex : search_existing_contact_data r.company = (none, none) := rfl
  have hnone : pyTruthy none = false := rfl
  cases hp : pyTruthy (extract_phone_from_address r.address) with
  | false =>
    show (stageOnePhone r).1 = none
    rw [stageOnePhone, hex]
    simp [hp, hnone]
  | true =>
    exfalso
    have hsrc : (stageOnePhone r).2 = some "Extracted from Address" := by
      rw [stageOnePhone, hex]
      simp [hp, hnone]
    have h2 : (stageOneEmail r (stageOnePhone r).2).2 = some "Generated" := h
    rw [hsrc, stageOneEmail, hex] at h2
    cases hg : pyTruthy (generate_email r.company r.contact) with
    | false =>
      rw [hg] at h2
      simp [hnone] at h2
    | true =>
      rw [hg] at h2
      simp [hnone] at h2

/-- Witness for C7: a row that gets a generated email and no phone. -/
theorem generated_source_has_no_phone_witness :
    (stageOne rowA).source = some "Generated" ∧ (stageOne rowA).phone = none :=
  ⟨by decide, generated_source_has_no_phone rowA (by decide)⟩

/-- Counterexample to C2 as stated: an entity whose phone was extracted
from its address loses that phone in the license merge when no license
phone is available, because line 210 overwrites Phone_Number with the
License_Phone column unconditionally. -/
theorem merge_drops_lower_tier_phone :
    (stageOne rowEx).phone = some "(612) 555-1212" ∧
    (stageTwo (stageOne rowEx) []).phone = none := by
  constructor
  · decide
  · decide

/-- C2 amended: after the license merge the phone field equals the
license phone of the best match whenever that match supplies a truthy
phone, and is empty otherwise — both when the best match carries no
truthy license phone (email-only records) and when no candidate matches
at all — regardless of any lower-tier phone on the row. -/
theorem merge_phone_from_license_only (row : ContactRow) (cands : List LicenseRecord) :
    (∀ r, (match_loop row.company cands).1 = some r → pyTruthy r.license_phone = true →
        (stageTwo row cands).phone = r.license_phone) ∧
    (∀ r, (match_loop row.company cands).1 = some r → pyTruthy r.license_phone = false →
        (stageTwo row cands).phone = none) ∧
    ((match_loop row.company cands).1 = none → (stageTwo row cands).phone = none) := by
  refine ⟨?_, ?_, ?_⟩
  · intro r hr ht
    show licPhoneOf row cands = r.license_phone
    rw [licPhoneOf, hr]
    simp [ht]
  · intro r hr ht
    show licPhoneOf row cands = none
    rw [licPhoneOf, hr]
    simp [ht]
  · intro h
    show licPhoneOf row cands = none
    rw [licPhoneOf, h]

/-- Witness for the amended C2: a matching candidate with a phone puts
that phone on the merged row; a matching email-only candidate leaves the
merged row phoneless even though the row had an address-extracted phone;
with no candidates the merged row is phoneless as well. -/
theorem merge_phone_from_license_only_witness :
    (stageTwo (stageOne rowA) [recA]).phone = some "612-555-1212" ∧
    ((stageOne rowB).phone = some "(612) 555-1212" ∧
      (stageTwo (stageOne rowB) [recB]).phone = none) ∧
    (stageTwo (stageOne rowEx) []).phone = none :=
  ⟨(merge_phone_from_license_only (stageOne rowA) [recA]).1 recA (by decide) (by decide),
   ⟨by decide,
    (merge_phone_from_license_only (stageOne rowB) [recB]).2.1 recB (by decide) (by decide)⟩,
   (merge_phone_from_license_only (stageOne rowEx) []).2.2 (by decide)⟩

/-- Counterexample to C9 as stated: a single-token contact person
containing the token trust still receives a generated info@ email,
because the trust/estate veto is checked only inside the two-or-more
name-parts branch. -/
theorem email_single_token_trust_generated :
    hasEntityToken "Trust" = true ∧
    generate_email (some "Johnson Brothers") (some "Trust") = some "info@johnsonbrothers.com" := by
  constructor
  · decide
  · decide

/-- C9 amended: the entity-token rejection applies exactly when the
contact person splits into at least two whitespace-separated parts; in
that case any occurrence of trust, estate, llc or inc (case-insensitive,
as a substring) forces generation to return none. -/
theorem email_entity_token_reject (comp person : String) :
    2 ≤ (nameParts person).length → hasEntityToken person = true →
    generate_email (some comp) (some person) = none := by
  intro hp htok
  rw [generate_email]
  by_cases hc : (decide ((domainCandidate comp.data).length < 3)
      || genericDomains.contains (domainCandidate comp.data)) = true
  · rw [if_pos (by simpa using hc)]
  · rw [if_neg (by simpa using hc), if_pos hp, if_pos htok]

/-- Witness for the amended C9: a two-part trust name is rejected. -/
theorem email_entity_token_reject_witness :
    2 ≤ (nameParts "Family Trust").length ∧ hasEntityToken "Family Trust" = true ∧
    generate_email (some "Johnson Brothers") (some "Family Trust") = none :=
  ⟨by decide, by decide,
    email_entity_token_reject "Johnson Brothers" "Family Trust" (by decide) (by decide)⟩

/-- Counterexample to C8 as stated: normalization does not delete
punctuation, it replaces each punctuation character by a space, so the
apostrophe leaves a space behind and the result is not BOBS PLUMBING INC. -/
theorem normalize_bobs_ne_spec :
    normalize_company_name (some bobsName) ≠ "BOBS PLUMBING INC" := by
  decide

/-- C8 amended: normalizing the scenario input yields BOB S PLUMBING INC:
uppercased, each punctuation character replaced by a space, whitespace
collapsed. -/
theorem normalize_bobs_value :
    normalize_company_name (some bobsName) = "BOB S PLUMBING INC" := by
  decide

/-- Counterexample to C3 as stated: ABC INC and ABC LLC have distinct
normalized forms, yet the scorer returns 1.0 for them through the
core-name fallback (both cores strip to ABC). -/
theorem exact_score_from_core_fallback :
    (normalize_company_name (some "ABC INC")).data ≠
      (normalize_company_name (some "ABC LLC")).data ∧
    fuzzy_match_companies (some "ABC INC") (some "ABC LLC") = (true, 1) := by
  have e1 : (normalize_company_name (some "ABC INC")).data = "ABC INC".data := by decide
  have e2 : (normalize_company_name (some "ABC LLC")).data = "ABC LLC".data := by decide
  have hr : ratioQ "ABC INC".data "ABC LLC".data = 5/7 := by
    rw [ratioQ, show matchesSum "ABC INC".data "ABC LLC".data = 5 from by decide]
    norm_num
  constructor
  · rw [e1, e2]
    decide
  · rw [fuzzy_match_companies, e1, e2, fuzzyOn]
    rw [if_neg (by decide : ¬("ABC INC".data = "ABC LLC".data))]
    have hb : boostedSim "ABC INC".data "ABC LLC".data = 5/7 := by
      rw [boostedSim]
      rw [if_neg (by decide :
        ¬((isInf "ABC INC".data "ABC LLC".data || isInf "ABC LLC".data "ABC INC".data) = true))]
      exact hr
    rw [hb, if_neg (by norm_num : ¬((85:ℚ)/100 ≤ 5/7))]
    rw [show stripCoreL "ABC INC".data = "ABC".data from by decide,
        show stripCoreL "ABC LLC".data = "ABC".data from by decide]
    rw [if_pos (by decide : (!("ABC".data).isEmpty && !("ABC".data).isEmpty) = true)]
    rw [ratioQ_self]
    rw [if_pos (by norm_num : (9:ℚ)/10 ≤ 1)]

/-- C3 amended: a pair with identical normalized names always scores 1.0
with a positive match; moreover a pair with distinct normalized names
also scores 1.0 whenever the boosted similarity stays below the 0.85
threshold and the two suffix-stripped cores are identical and non-empty
(the core-name fallback path). -/
theorem score_one_characterization (a b : Option String) :
    ((normalize_company_name a).data = (normalize_company_name b).data →
      fuzzy_match_companies a b = (true, 1)) ∧
    ((normalize_company_name a).data ≠ (normalize_company_name b).data →
      boostedSim (normalize_company_name a).data (normalize_company_name b).data < 85/100 →
      stripCoreL (normalize_company_name a).data = stripCoreL (normalize_company_name b).data →
      stripCoreL (normalize_company_name a).data ≠ [] →
      fuzzy_match_companies a b = (true, 1)) := by
  constructor
  · intro h
    rw [fuzzy_match_companies, fuzzyOn, if_pos h]
  · intro hne hsim hcore hne2
    have hne3 : stripCoreL (normalize_company_name b).data ≠ [] := hcore ▸ hne2
    rw [fuzzy_match_companies, fuzzyOn, if_neg hne, if_neg (not_le.mpr hsim), hcore]
    have hb : (!(stripCoreL (normalize_company_name b).data).isEmpty &&
        !(stripCoreL (normalize_company_name b).data).isEmpty) = true := by
      cases hsc : stripCoreL (normalize_company_name b).data with
      | nil => exact absurd hsc hne3
      | cons c cs => rfl
    rw [if_pos hb, ratioQ_self, if_pos (by norm_num : (9:ℚ)/10 ≤ 1)]

/-- Witness for the amended C3: the two branches instantiated at ACME INC
against itself and at the ABC INC / ABC LLC pair. -/
theorem score_one_characterization_witness :
    fuzzy_match_companies (some "ACME INC") (some "ACME INC") = (true, 1) ∧
    fuzzy_match_companies (some "ABC INC") (some "ABC LLC") = (true, 1) := by
  constructor
  · exact (score_one_characterization (some "ACME INC") (some "ACME INC")).1 (by decide)
  · refine (score_one_characterization (some "ABC INC") (some "ABC LLC")).2
      (by decide) ?_ (by decide) (by decide)
    have e1 : (normalize_company_name (some "ABC INC")).data = "ABC INC".data := by decide
    have e2 : (normalize_company_name (some "ABC LLC")).data = "ABC LLC".data := by decide
    rw [e1, e2, boostedSim]
    rw [if_neg (by decide :
      ¬((isInf "ABC INC".data "ABC LLC".data || isInf "ABC LLC".data "ABC INC".data) = true))]
    rw [ratioQ, show matchesSum "ABC INC".data "ABC LLC".data = 5 from by decide]
    norm_num

/-- Counterexample to C5 as stated: the scorer is not symmetric, because
SequenceMatcher ratio depends on argument order; tide against diet scores
1/4 one way and 1/2 the other. -/
theorem scorer_asymmetric :
    (fuzzy_match_companies (some "tide") (some "diet")).2 ≠
      (fuzzy_match_companies (some "diet") (some "tide")).2 := by
  have e1 : (normalize_company_name (some "tide")).data = "TIDE".data := by decide
  have e2 : (normalize_company_name (some "diet")).data = "DIET".data := by decide
  have hr1 : ratioQ "TIDE".data "DIET".data = 1/4 := by
    rw [ratioQ, show matchesSum "TIDE".data "DIET".data = 1 from by decide]
    norm_num
  have hr2 : ratioQ "DIET".data "TIDE".data = 1/2 := by
    rw [ratioQ, show matchesSum "DIET".data "TIDE".data = 2 from by decide]
    norm_num
  have hb1 : boostedSim "TIDE".data "DIET".data = 1/4 := by
    rw [boostedSim]
    rw [if_neg (by decide :
      ¬((isInf "TIDE".data "DIET".data || isInf "DIET".data "TIDE".data) = true))]
    exact hr1
  have hb2 : boostedSim "DIET".data "TIDE".data = 1/2 := by
    rw [boostedSim]
    rw [if_neg (by decide :
      ¬((isInf "DIET".data "TIDE".data || isInf "TIDE".data "DIET".data) = true))]
    exact hr2
  have h1 : fuzzy_match_companies (some "tide") (some "diet") = (false, 1/4) := by
    rw [fuzzy_match_companies, e1, e2, fuzzyOn]
    rw [if_neg (by decide : ¬("TIDE".data = "DIET".data))]
    rw [hb1, if_neg (by norm_num : ¬((85:ℚ)/100 ≤ 1/4))]
    rw [show stripCoreL "TIDE".data = "TIDE".data from by decide,
        show stripCoreL "DIET".data = "DIET".data from by decide]
    rw [if_pos (by decide : (!("TIDE".data).isEmpty && !("DIET".data).isEmpty) = true)]
    rw [hr1, if_neg (by norm_num : ¬((9:ℚ)/10 ≤ 1/4))]
  have h2 : fuzzy_match_companies (some "diet") (some "tide") = (false, 1/2) := by
    rw [fuzzy_match_companies, e2, e1, fuzzyOn]
    rw [if_neg (by decide : ¬("DIET".data = "TIDE".data))]
    rw [hb2, if_neg (by norm_num : ¬((85:ℚ)/100 ≤ 1/2))]
    rw [show stripCoreL "DIET".data = "DIET".data from by decide,
        show stripCoreL "TIDE".data = "TIDE".data from by decide]
    rw [if_pos (by decide : (!("DIET".data).isEmpty && !("TIDE".data).isEmpty) = true)]
    rw [hr2, if_neg (by norm_num : ¬((9:ℚ)/10 ≤ 1/2))]
  rw [h1, h2]
  norm_num

/-- C5 amended: the scorer is symmetric on every pair for which the
underlying SequenceMatcher ratio is itself order-independent, both on the
normalized names and on their suffix-stripped cores; the asymmetry of the
ratio is the only source of scorer asymmetry. -/
theorem scorer_symm_of_ratio_symm (a b : Option String) :
    ratioQ (normalize_company_name a).data (normalize_company_name b).data =
      ratioQ (normalize_company_name b).data (normalize_company_name a).data →
    ratioQ (stripCoreL (normalize_company_name a).data)
        (stripCoreL (normalize_company_name b).data) =
      ratioQ (stripCoreL (normalize_company_name b).data)
        (stripCoreL (normalize_company_name a).data) →
    (fuzzy_match_companies a b).2 = (fuzzy_match_companies b a).2 := by
  intro hr hcr
  rw [fuzzy_match_companies, fuzzy_match_companies]
  set np := (normalize_company_name a).data with hnp
  set nl := (normalize_company_name b).data with hnl
  rw [fuzzyOn, fuzzyOn]
  by_cases heq : np = nl
  · rw [if_pos heq, if_pos heq.symm]
  · rw [if_neg heq, if_neg (Ne.symm heq)]
    have hb : boostedSim nl np = boostedSim np nl := by
      rw [boostedSim, boostedSim, hr, Bool.or_comm]
    rw [hb, ← hcr, Bool.and_comm (!(stripCoreL nl).isEmpty) (!(stripCoreL np).isEmpty)]

/-- Witness for the amended C5: abc and abd have order-independent ratios
(2/3 both ways, on the names and on the cores), so their scores agree. -/
theorem scorer_symm_of_ratio_symm_witness :
    (fuzzy_match_companies (some "abc") (some "abd")).2 =
      (fuzzy_match_companies (some "abd") (some "abc")).2 := by
  apply scorer_symm_of_ratio_symm
  · have e1 : (normalize_company_name (some "abc")).data = "ABC".data := by decide
    have e2 : (normalize_company_name (some "abd")).data = "ABD".data := by decide
    rw [e1, e2]
    rw [ratioQ, show matchesSum "ABC".data "ABD".data = 2 from by decide]
    rw [ratioQ, show matchesSum "ABD".data "ABC".data = 2 from by decide]
    norm_num
  · have e1 : stripCoreL (normalize_company_name (some "abc")).data = "ABC".data := by decide
    have e2 : stripCoreL (normalize_company_name (some "abd")).data = "ABD".data := by decide
    rw [e1, e2]
    rw [ratioQ, show matchesSum "ABC".data "ABD".data = 2 from by decide]
    rw [ratioQ, show matchesSum "ABD".data "ABC".data = 2 from by decide]
    norm_num

/-- C6: the per-line extractor is a total function whose every emitted
record comes from a line whose stripped text starts with the L101 marker,
carries a non-empty company name, and has at least one of phone or email;
lines without the marker and lines without the APPROVED status marker
yield no record. -/
theorem extractor_line_invariant (line : String) :
    (∀ rec, extract_license_line line = some rec →
      isPref "L101".data (trimWs line.data) = true ∧
      rec.license_company ≠ "" ∧
      (rec.license_phone.isSome ∨ rec.license_email.isSome)) ∧
    (isPref "L101".data (trimWs line.data) = false → extract_license_line line = none) ∧
    (pyFind "APPROVED".data line.data = none → extract_license_line line = none) := by
  refine ⟨?_, ?_, ?_⟩
  · intro rec h
    rw [extract_license_line] at h
    split at h
    · exact absurd h (by simp)
    · split at h
      · exact absurd h (by simp)
      · next hpref =>
        have hpref2 : isPref "L101".data (trimWs line.data) = true := by
          cases hp : isPref "L101".data (trimWs line.data) with
          | true => rfl
          | false => exact absurd (by rw [hp]; rfl) hpref
        split at h
        · exact absurd h (by simp)
        · rename_i idx heq
          split at h
          · split at h
            · next hguard =>
              simp only [Bool.and_eq_true, Bool.or_eq_true] at hguard
              simp only [Option.some.injEq] at h
              subst h
              refine ⟨hpref2, ?_, ?_⟩
              · intro hceq
                have hc : lineCompany line.data idx = [] := congrArg String.data hceq
                rcases hguard with ⟨hfalse, -⟩
                rw [hc] at hfalse
                simp at hfalse
              · rcases hguard with ⟨-, hor⟩
                rcases hor with hph | hem
                · left
                  cases hp2 : linePhone line.data with
                  | none => simp [hp2] at hph
                  | some p => rfl
                · right
                  cases he2 : lineEmail line.data with
                  | none => simp [he2] at hem
                  | some e => rfl
            · exact absurd h (by simp)
          · exact absurd h (by simp)
  · intro hfalse
    rw [extract_license_line]
    split
    · rfl
    · rw [if_pos (by rw [hfalse]; rfl)]
  · intro hnone
    rw [extract_license_line]
    split
    · rfl
    · split
      · rfl
      · rw [hnone]

/-- Witness for C6: the specification-scenario line produces the expected
record, which satisfies all three invariant parts. -/
theorem extractor_line_invariant_witness :
    isPref "L101".data (trimWs lineEx.data) = true ∧
    recEx.license_company ≠ "" ∧
    (recEx.license_phone.isSome ∨ recEx.license_email.isSome) :=
  (extractor_line_invariant lineEx).1 recEx (by decide)

theorem ws_not_digit (c : Char) : isWs c = true → c.isDigit = false := by
  intro h
  simp only [isWs, Bool.or_eq_true, decide_eq_true_eq] at h
  rcases h with ((((rfl | rfl) | rfl) | rfl) | rfl) | rfl <;> decide

theorem sep_not_digit (c : Char) : isSepCh c = true → c.isDigit = false := by
  intro h
  simp only [isSepCh, Bool.or_eq_true, decide_eq_true_eq] at h
  rcases h with (rfl | rfl) | h
  · decide
  · decide
  · exact ws_not_digit c h

theorem takeDigits_spec : ∀ (n : Nat) (s ds r : Str), takeDigits n s = some (ds, r) →
    ds.length = n ∧ ds.filter Char.isDigit = ds := by
  intro n
  induction n with
  | zero =>
    intro s ds r h
    rw [takeDigits] at h
    simp only [Option.some.injEq, Prod.mk.injEq] at h
    rw [← h.1]
    exact ⟨rfl, rfl⟩
  | succ n ih =>
    intro s ds r h
    cases s with
    | nil => exact absurd h (by rw [takeDigits]; simp)
    | cons c cs =>
      rw [takeDigits] at h
      by_cases hd : c.isDigit = true
      · rw [if_pos hd] at h
        cases ht : takeDigits n cs with
        | none => rw [ht] at h; exact absurd h (by simp)
        | some pr =>
          rw [ht] at h
          cases pr with
          | mk ds2 rest =>
            simp only [Option.some.injEq, Prod.mk.injEq] at h
            obtain ⟨hds, -⟩ := h
            obtain ⟨hl, hf⟩ := ih cs ds2 rest ht
            rw [← hds]
            constructor
            · simp [hl]
            · rw [List.filter_cons_of_pos hd, hf]
      · rw [if_neg hd] at h
        exact absurd h (by simp)

theorem optSep_filter (s : Str) : ((optSep s).1).filter Char.isDigit = [] := by
  cases s with
  | nil => rfl
  | cons c cs =>
    rw [optSep]
    by_cases hs : isSepCh c = true
    · rw [if_pos hs]
      simp [List.filter_cons_of_neg, sep_not_digit c hs]
    · rw [if_neg hs]
      rfl

theorem takeWhileWs_filter (s : Str) : (s.takeWhile isWs).filter Char.isDigit = [] := by
  rw [List.filter_eq_nil_iff]
  intro c hc
  have := List.mem_takeWhile_imp hc
  simp [ws_not_digit c this]

theorem matchP1At_digits (pw : Bool) (s : Str) (m : Str) :
    matchP1At pw s = some m → (m.filter Char.isDigit).length = 10 := by
  intro h
  rw [matchP1At] at h
  split at h
  · exact absurd h (by simp)
  · split at h
    · exact absurd h (by simp)
    · rename_i a r h1
      split at h
      · exact absurd h (by simp)
      · rename_i b r2 h2
        split at h
        · exact absurd h (by simp)
        · rename_i c r4 h3
          split at h
          · simp only [Option.some.injEq] at h
            subst h
            obtain ⟨hl1, hf1⟩ := takeDigits_spec 3 _ _ _ h1
            obtain ⟨hl2, hf2⟩ := takeDigits_spec 3 _ _ _ h2
            obtain ⟨hl3, hf3⟩ := takeDigits_spec 4 _ _ _ h3
            simp only [List.filter_append, hf1, hf2, hf3, optSep_filter,
              List.append_nil, List.nil_append, List.length_append]
            omega
          · exact absurd h (by simp)

theorem matchP2At_digits (pw : Bool) (s : Str) (m : Str) :
    matchP2At pw s = some m → (m.filter Char.isDigit).length = 10 := by
  intro h
  rw [matchP2At.eq_def] at h
  split at h
  · exact absurd h (by simp)
  · split at h
    · exact absurd h (by simp)
    · rename_i c0 cs
      split at h
      · split at h
        · exact absurd h (by simp)
        · rename_i a r h1
          split at h
          · exact absurd h (by simp)
          · rename_i c1 r1
            split at h
            · split at h
              · exact absurd h (by simp)
              · rename_i b r3 h2
                split at h
                · exact absurd h (by simp)
                · rename_i c r5 h3
                  split at h
                  · simp only [Option.some.injEq] at h
                    subst h
                    obtain ⟨hl1, hf1⟩ := takeDigits_spec 3 _ _ _ h1
                    obtain ⟨hl2, hf2⟩ := takeDigits_spec 3 _ _ _ h2
                    obtain ⟨hl3, hf3⟩ := takeDigits_spec 4 _ _ _ h3
                    have e1 : List.filter Char.isDigit ['('] = [] := rfl
                    have e2 : List.filter Char.isDigit [')'] = [] := rfl
                    simp only [List.filter_append, hf1, hf2, hf3, optSep_filter,
                      takeWhileWs_filter, e1, e2, List.append_nil, List.nil_append,
                      List.length_append]
                    omega
                  · exact absurd h (by simp)
            · exact absurd h (by simp)
      · exact absurd h (by simp)

theorem matchP3At_digits (pw : Bool) (s : Str) (m : Str) :
    matchP3At pw s = some m → (m.filter Char.isDigit).length = 10 := by
  intro h
  rw [matchP3At] at h
  split at h
  · exact absurd h (by simp)
  · split at h
    · exact absurd h (by simp)
    · rename_i ds r h1
      split at h
      · simp only [Option.some.injEq] at h
        subst h
        obtain ⟨hl, hf⟩ := takeDigits_spec 10 _ _ _ h1
        rw [hf, hl]
      · exact absurd h (by simp)

theorem searchPat_digits (matchAt : Bool → Str → Option Str)
    (hmat : ∀ pw s m, matchAt pw s = some m → (m.filter Char.isDigit).length = 10) :
    ∀ (pw : Bool) (s : Str) m, searchPat matchAt pw s = some m →
      (m.filter Char.isDigit).length = 10 := by
  intro pw s
  induction s generalizing pw with
  | nil =>
    intro m h
    rw [searchPat] at h
    exact hmat _ _ _ h
  | cons c cs ih =>
    intro m h
    rw [searchPat] at h
    split at h
    · rename_i m2 heq
      simp only [Option.some.injEq] at h
      subst h
      exact hmat _ _ _ heq
    · exact ih _ _ h

theorem firstPhoneMatch_digits (l : Str) (m : Str) :
    firstPhoneMatch l = some m → (m.filter Char.isDigit).length = 10 := by
  intro h
  rw [firstPhoneMatch] at h
  split at h
  · rename_i m2 heq
    simp only [Option.some.injEq] at h
    subst h
    exact searchPat_digits matchP1At matchP1At_digits false l _ heq
  · split at h
    · rename_i m2 heq
      simp only [Option.some.injEq] at h
      subst h
      exact searchPat_digits matchP2At matchP2At_digits false l _ heq
    · exact searchPat_digits matchP3At matchP3At_digits false l _ h

/-- C10: phone extraction from an address returns exactly the first
phone-shaped match, in the pattern priority order of the source, formatted
as (ddd) ddd-dddd from its digits; every such match has exactly ten
digits, so the ten-digit guard never rejects a found match, and every
returned value is built from a ten-digit string. -/
theorem phone_extraction_format (a : String) :
    extract_phone_from_address (some a) =
      (firstPhoneMatch a.data).map (fun m => String.mk (fmtPhone (m.filter Char.isDigit))) ∧
    (∀ m, firstPhoneMatch a.data = some m → (m.filter Char.isDigit).length = 10) ∧
    (∀ r, extract_phone_from_address (some a) = some r →
      ∃ ds : Str, ds.length = 10 ∧ (∀ c ∈ ds, c.isDigit = true) ∧
        r = String.mk (fmtPhone ds)) := by
  have hmain : extract_phone_from_address (some a) =
      (firstPhoneMatch a.data).map (fun m => String.mk (fmtPhone (m.filter Char.isDigit))) := by
    rw [extract_phone_from_address, firstPhoneMatch]
    cases h1 : findP1 a.data with
    | some m =>
      rw [tryPatterns, h1]
      dsimp only
      have hd : (m.filter Char.isDigit).length = 10 :=
        searchPat_digits matchP1At matchP1At_digits false a.data m h1
      rw [if_pos hd]
      rfl
    | none =>
      rw [tryPatterns, h1]
      dsimp only
      cases h2 : findP2 a.data with
      | some m =>
        rw [tryPatterns, h2]
        dsimp only
        have hd : (m.filter Char.isDigit).length = 10 :=
          searchPat_digits matchP2At matchP2At_digits false a.data m h2
        rw [if_pos hd]
        rfl
      | none =>
        rw [tryPatterns, h2]
        dsimp only
        cases h3 : findP3 a.data with
        | some m =>
          rw [tryPatterns, h3]
          dsimp only
          have hd : (m.filter Char.isDigit).length = 10 :=
            searchPat_digits matchP3At matchP3At_digits false a.data m h3
          rw [if_pos hd]
          rfl
        | none =>
          rw [tryPatterns, h3]
          rfl
  refine ⟨hmain, fun m h => firstPhoneMatch_digits a.data m h, ?_⟩
  intro r hr
  rw [hmain] at hr
  cases hm : firstPhoneMatch a.data with
  | none => rw [hm] at hr; exact absurd hr (by simp)
  | some m =>
    rw [hm] at hr
    have hr2 : String.mk (fmtPhone (m.filter Char.isDigit)) = r := Option.some.inj hr
    refine ⟨m.filter Char.isDigit, firstPhoneMatch_digits a.data m hm, ?_, hr2.symm⟩
    intro c hc
    exact (List.mem_filter.mp hc).2

/-- Witness for C10 at a concrete address: the first match there has
exactly ten digits, and extraction returns it formatted. -/
theorem phone_extraction_format_witness :
    extract_phone_from_address (some "612-555-1212 MAIN ST") = some "(612) 555-1212" ∧
    ("612-555-1212".data.filter Char.isDigit).length = 10 :=
  ⟨by decide,
    (phone_extraction_format "612-555-1212 MAIN ST").2.1 "612-555-1212".data (by decide)⟩

/-- Counterexample to C4 as stated: normalization is not idempotent,
because the AND-to-ampersand replacement introduces an ampersand that the
punctuation pass of a second normalization strips again. -/
theorem normalize_not_idempotent :
    normalize_company_name (some (normalize_company_name (some "a and b"))) ≠
      normalize_company_name (some "a and b") := by
  decide

theorem toUpper_idem (c : Char) : (Char.toUpper c).toUpper = Char.toUpper c := by
  by_cases h : 97 ≤ c.toNat ∧ c.toNat ≤ 122
  · have hc : c = Char.ofNat c.toNat := (Char.ofNat_toNat c).symm
    obtain ⟨h1, h2⟩ := h
    interval_cases hn : c.toNat <;> (rw [hc]; decide)
  · have hfix : Char.toUpper c = c := by
      rw [Char.toUpper]
      simp only [ge_iff_le]
      rw [if_neg]
      exact h
    rw [hfix, hfix]

/-- Characters of a replacement result come from the input or from the
replacement string. -/
theorem replAux_chars : ∀ (fuel : Nat) (pat rep s : Str) (c : Char),
    c ∈ replAux pat rep fuel s → c ∈ s ∨ c ∈ rep := by
  intro fuel
  induction fuel with
  | zero =>
    intro pat rep s c h
    cases s with
    | nil => simp [replAux] at h
    | cons a as => exact Or.inl (by simpa [replAux] using h)
  | succ n ih =>
    intro pat rep s c h
    cases s with
    | nil => simp [replAux] at h
    | cons a as =>
      rw [replAux] at h
      by_cases hp : isPref pat (a :: as) = true
      · rw [if_pos hp] at h
        rcases List.mem_append.mp h with h | h
        · exact Or.inr h
        · rcases ih pat rep _ c h with h | h
          · exact Or.inl (List.drop_subset _ _ h)
          · exact Or.inr h
      · rw [if_neg hp] at h
        rcases List.mem_cons.mp h with rfl | h
        · exact Or.inl (List.mem_cons_self _ _)
        · rcases ih pat rep as c h with h | h
          · exact Or.inl (List.mem_cons_of_mem _ h)
          · exact Or.inr h

/-- A character predicate carried by the input and every replacement
string survives the whole replacement table. -/
theorem foldlRepl_chars (P : Char → Prop) :
    ∀ (ps : List (Str × Str)) (s : Str),
      (∀ c ∈ s, P c) → (∀ pr ∈ ps, ∀ c ∈ pr.2, P c) →
      ∀ c ∈ ps.foldl (fun acc pr => pyReplace acc pr.1 pr.2) s, P c := by
  intro ps
  induction ps with
  | nil =>
    intro s hs _ c hc
    exact hs c hc
  | cons pr ps ih =>
    intro s hs hps c hc
    rw [List.foldl_cons] at hc
    refine ih (pyReplace s pr.1 pr.2) ?_ (fun q hq => hps q (List.mem_cons_of_mem _ hq)) c hc
    intro d hd
    rcases replAux_chars _ _ _ _ _ hd with h | h
    · exact hs d h
    · exact hps pr (List.mem_cons_self _ _) d h

/-- Characters of split words come from the accumulator or the input. -/
theorem splitWsAux_chars : ∀ (s acc : Str) (w : Str), w ∈ splitWsAux acc s →
    ∀ c ∈ w, c ∈ acc ∨ c ∈ s := by
  intro s
  induction s with
  | nil =>
    intro acc w hw c hc
    rw [splitWsAux] at hw
    split at hw
    · simp at hw
    · rcases List.mem_cons.mp hw with rfl | hw
      · exact Or.inl (List.mem_reverse.mp hc)
      · simp at hw
  | cons a as ih =>
    intro acc w hw c hc
    rw [splitWsAux] at hw
    by_cases ha : isWs a = true
    · rw [if_pos ha] at hw
      by_cases he : acc.isEmpty = true
      · rw [if_pos he] at hw
        rcases ih [] w hw c hc with h | h
        · simp at h
        · exact Or.inr (List.mem_cons_of_mem _ h)
      · rw [if_neg he] at hw
        rcases List.mem_cons.mp hw with rfl | hw
        · exact Or.inl (List.mem_reverse.mp hc)
        · rcases ih [] w hw c hc with h | h
          · simp at h
          · exact Or.inr (List.mem_cons_of_mem _ h)
    · rw [if_neg ha] at hw
      rcases ih (a :: acc) w hw c hc with h | h
      · rcases List.mem_cons.mp h with rfl | h
        · exact Or.inr (List.mem_cons_self _ _)
        · exact Or.inl h
      · exact Or.inr (List.mem_cons_of_mem _ h)

/-- Characters of a joined word list come from the words or are spaces. -/
theorem joinWords_chars : ∀ (ws : List Str) (c : Char), c ∈ joinWords ws →
    (∃ w ∈ ws, c ∈ w) ∨ c = ' ' := by
  intro ws
  induction ws with
  | nil =>
    intro c hc
    simp [joinWords] at hc
  | cons w ws ih =>
    intro c hc
    cases ws with
    | nil =>
      left
      exact ⟨w, List.mem_cons_self _ _, by simpa [joinWords] using hc⟩
    | cons v vs =>
      rw [show joinWords (w :: v :: vs) = w ++ ' ' :: joinWords (v :: vs) from rfl] at hc
      rcases List.mem_append.mp hc with h | h
      · left
        exact ⟨w, List.mem_cons_self _ _, h⟩
      · rcases List.mem_cons.mp h with rfl | h
        · right
          rfl
        · rcases ih c h with ⟨u, hu, hcu⟩ | h
          · left
            exact ⟨u, List.mem_cons_of_mem _ hu, hcu⟩
          · right
            exact h

/-- Every character of a normalized name is fixed by uppercasing and is
either non-punctuation or the ampersand introduced by the AND
replacement. -/
theorem normL_chars (x : Str) :
    ∀ c ∈ normL x, Char.toUpper c = c ∧ (isPunctCh c = false ∨ c = '&') := by
  intro c hc
  rw [normL, collapse, splitWs] at hc
  rcases joinWords_chars _ c hc with ⟨w, hw, hcw⟩ | rfl
  · rcases splitWsAux_chars _ [] w hw c hcw with h | h
    · simp at h
    · refine foldlRepl_chars (fun d => Char.toUpper d = d ∧ (isPunctCh d = false ∨ d = '&'))
        replPairs _ ?_ ?_ c h
      · intro d hd
        rcases List.mem_map.mp hd with ⟨e, he, rfl⟩
        by_cases hp : isPunctCh e = true
        · rw [if_pos hp]
          exact ⟨by decide, Or.inl (by decide)⟩
        · rw [if_neg hp]
          rcases List.mem_map.mp he with ⟨f, -, rfl⟩
          refine ⟨toUpper_idem f, Or.inl ?_⟩
          cases hpe : isPunctCh (Char.toUpper f) with
          | false => rfl
          | true => exact absurd hpe hp
      · decide
  · exact ⟨by decide, Or.inl (by decide)⟩

theorem map_id_of_fixed {f : Char → Char} : ∀ (s : Str), (∀ c ∈ s, f c = c) → s.map f = s := by
  intro s
  induction s with
  | nil => intro _; rfl
  | cons a as ih =>
    intro h
    simp only [List.map_cons]
    rw [h a (List.mem_cons_self _ _), ih (fun c hc => h c (List.mem_cons_of_mem _ hc))]

theorem isPref_append : ∀ (p s : Str), isPref p s = true → p ++ s.drop p.length = s := by
  intro p
  induction p with
  | nil =>
    intro s _
    simp
  | cons a ps ih =>
    intro s h
    cases s with
    | nil => simp [isPref] at h
    | cons b bs =>
      simp only [isPref, Bool.and_eq_true, decide_eq_true_eq] at h
      obtain ⟨rfl, h2⟩ := h
      simp only [List.length_cons, List.drop_succ_cons, List.cons_append, List.cons.injEq]
      exact ⟨trivial, ih bs h2⟩

theorem replAux_self : ∀ (fuel : Nat) (pat s : Str), s.length ≤ fuel → pat ≠ [] →
    replAux pat pat fuel s = s := by
  intro fuel
  induction fuel with
  | zero =>
    intro pat s hl _
    cases s with
    | nil => rfl
    | cons a as => simp at hl
  | succ n ih =>
    intro pat s hl hp
    cases s with
    | nil => rfl
    | cons a as =>
      rw [replAux]
      by_cases hpre : isPref pat (a :: as) = true
      · rw [if_pos hpre]
        have hpl : 1 ≤ pat.length := List.length_pos.mpr hp
        have hdl : ((a :: as).drop pat.length).length ≤ n := by
          simp only [List.length_drop, List.length_cons] at *
          omega
        rw [ih pat _ hdl hp]
        exact isPref_append pat _ hpre
      · rw [if_neg hpre]
        have hl2 : as.length ≤ n := by
          simp only [List.length_cons] at hl
          omega
        rw [ih pat as hl2 hp]

theorem pyReplace_self (s pat : Str) (hp : pat ≠ []) : pyReplace s pat pat = s :=
  replAux_self s.length pat s le_rfl hp

theorem isInf_cons_false {pat : Str} {c : Char} {cs : Str} :
    isInf pat (c :: cs) = false → isPref pat (c :: cs) = false ∧ isInf pat cs = false := by
  intro h
  rw [isInf] at h
  exact Bool.or_eq_false_iff.mp h

theorem replAux_no_occ : ∀ (fuel : Nat) (pat rep s : Str), s.length ≤ fuel →
    isInf pat s = false → pat ≠ [] → replAux pat rep fuel s = s := by
  intro fuel
  induction fuel with
  | zero =>
    intro pat rep s hl _ _
    cases s with
    | nil => rfl
    | cons a as => simp at hl
  | succ n ih =>
    intro pat rep s hl hinf hp
    cases s with
    | nil => rfl
    | cons a as =>
      obtain ⟨hpre, hinf2⟩ := isInf_cons_false hinf
      rw [replAux, if_neg (by simp [hpre])]
      have hl2 : as.length ≤ n := by
        simp only [List.length_cons] at hl
        omega
      rw [ih pat rep as hl2 hinf2 hp]

theorem pyReplace_no_occ (s pat rep : Str) (hinf : isInf pat s = false) (hp : pat ≠ []) :
    pyReplace s pat rep = s :=
  replAux_no_occ s.length pat rep s le_rfl hinf hp

/-- Words produced by the splitter are non-empty and whitespace-free. -/
theorem splitWsAux_good : ∀ (s acc : Str), (∀ c ∈ acc, isWs c = false) →
    ∀ w ∈ splitWsAux acc s, w ≠ [] ∧ ∀ c ∈ w, isWs c = false := by
  intro s
  induction s with
  | nil =>
    intro acc hacc w hw
    rw [splitWsAux] at hw
    split at hw
    · simp at hw
    · next he =>
      rcases List.mem_cons.mp hw with rfl | hw
      · constructor
        · intro hrev
          rw [List.reverse_eq_nil_iff] at hrev
          rw [hrev] at he
          exact he rfl
        · intro c hc
          exact hacc c (List.mem_reverse.mp hc)
      · simp at hw
  | cons a as ih =>
    intro acc hacc w hw
    rw [splitWsAux] at hw
    by_cases ha : isWs a = true
    · rw [if_pos ha] at hw
      by_cases he : acc.isEmpty = true
      · rw [if_pos he] at hw
        exact ih [] (by simp) w hw
      · rw [if_neg he] at hw
        rcases List.mem_cons.mp hw with rfl | hw
        · constructor
          · intro hrev
            rw [List.reverse_eq_nil_iff] at hrev
            rw [hrev] at he
            exact he rfl
          · intro c hc
            exact hacc c (List.mem_reverse.mp hc)
        · exact ih [] (by simp) w hw
    · rw [if_neg ha] at hw
      simp only [Bool.not_eq_true] at ha
      refine ih (a :: acc) ?_ w hw
      intro c hc
      rcases List.mem_cons.mp hc with rfl | hc
      · exact ha
      · exact hacc c hc

/-- Scanning a whitespace-free word accumulates it verbatim. -/
theorem splitWsAux_word : ∀ (w acc rest : Str), (∀ c ∈ w, isWs c = false) →
    splitWsAux acc (w ++ rest) = splitWsAux (w.reverse ++ acc) rest := by
  intro w
  induction w with
  | nil =>
    intro acc rest _
    simp
  | cons a ws ih =>
    intro acc rest hw
    have ha : isWs a = false := hw a (List.mem_cons_self _ _)
    simp only [List.cons_append]
    rw [splitWsAux, if_neg (by simp [ha])]
    rw [ih (a :: acc) rest (fun c hc => hw c (List.mem_cons_of_mem _ hc))]
    congr 1
    simp

/-- Splitting the space-join of good words recovers the words. -/
theorem splitWs_join : ∀ (ws : List Str), (∀ w ∈ ws, w ≠ [] ∧ ∀ c ∈ w, isWs c = false) →
    splitWs (joinWords ws) = ws := by
  intro ws
  induction ws with
  | nil => intro _; rfl
  | cons w ws ih =>
    intro h
    obtain ⟨hw_ne, hw_ws⟩ := h w (List.mem_cons_self _ _)
    cases ws with
    | nil =>
      show splitWs (joinWords [w]) = [w]
      rw [show joinWords [w] = w from rfl, splitWs]
      rw [← List.append_nil w, splitWsAux_word w [] [] hw_ws]
      rw [splitWsAux]
      rw [if_neg (by simp [hw_ne])]
      simp
    | cons v vs =>
      show splitWs (joinWords (w :: v :: vs)) = w :: v :: vs
      rw [show joinWords (w :: v :: vs) = w ++ ' ' :: joinWords (v :: vs) from rfl, splitWs]
      rw [splitWsAux_word w [] _ hw_ws]
      rw [splitWsAux]
      rw [if_pos (by decide : isWs ' ' = true)]
      rw [if_neg (by simp [hw_ne])]
      have ih2 : splitWsAux [] (joinWords (v :: vs)) = v :: vs :=
        ih (fun u hu => h u (List.mem_cons_of_mem _ hu))
      rw [ih2]
      simp

/-- Whitespace collapse is idempotent. -/
theorem collapse_idem (s : Str) : collapse (collapse s) = collapse s := by
  rw [collapse, collapse, splitWs_join (splitWs s)]
  intro w hw
  exact splitWsAux_good s [] (by simp) w hw

/-- Second normalization pass is the identity on a string that is already
uppercase-fixed, punctuation-free, collapsed, and free of every
replacement trigger. -/
theorem normL_of_stable (y : Str)
    (hup : ∀ c ∈ y, Char.toUpper c = c)
    (hpunct : ∀ c ∈ y, isPunctCh c = false)
    (h1 : isInf " INCORPORATED".data y = false)
    (h2 : isInf " CORPORATION".data y = false)
    (h3 : isInf " LIMITED LIABILITY COMPANY".data y = false)
    (h4 : isInf " LIMITED".data y = false)
    (h5 : isInf " COMPANY".data y = false)
    (h6 : isInf " AND ".data y = false)
    (hcol : collapse y = y) :
    normL y = y := by
  rw [normL]
  rw [map_id_of_fixed y hup]
  rw [map_id_of_fixed y (fun c hc => by rw [if_neg (by simp [hpunct c hc])])]
  simp only [replPairs, List.foldl_cons, List.foldl_nil]
  rw [pyReplace_no_occ y _ _ h1 (by decide)]
  rw [pyReplace_no_occ y _ _ h2 (by decide)]
  rw [pyReplace_no_occ y _ _ h3 (by decide)]
  rw [pyReplace_no_occ y _ _ h4 (by decide)]
  rw [pyReplace_no_occ y _ _ h5 (by decide)]
  rw [pyReplace_no_occ y _ _ h6 (by decide)]
  rw [pyReplace_self y _ (by decide)]
  rw [pyReplace_self y _ (by decide)]
  rw [pyReplace_self y _ (by decide)]
  exact hcol

/-- C4 amended: normalization is idempotent on every input whose
normalized form contains no ampersand and no occurrence of a replacement
trigger phrase; the counterexample shows the ampersand case genuinely
fails, and trigger phrases can also appear after whitespace collapse. -/
theorem normalize_idem_on_stable (x : String)
    (hamp : '&' ∉ (normalize_company_name (some x)).data)
    (h1 : isInf " INCORPORATED".data (normalize_company_name (some x)).data = false)
    (h2 : isInf " CORPORATION".data (normalize_company_name (some x)).data = false)
    (h3 : isInf " LIMITED LIABILITY COMPANY".data (normalize_company_name (some x)).data = false)
    (h4 : isInf " LIMITED".data (normalize_company_name (some x)).data = false)
    (h5 : isInf " COMPANY".data (normalize_company_name (some x)).data = false)
    (h6 : isInf " AND ".data (normalize_company_name (some x)).data = false) :
    normalize_company_name (some (normalize_company_name (some x))) =
      normalize_company_name (some x) := by
  have hdata : (normalize_company_name (some x)).data = normL x.data := by
    rw [show normalize_company_name (some x) = String.mk (normL x.data) from by
      rw [normalize_company_name]]
  rw [hdata] at hamp h1 h2 h3 h4 h5 h6
  have hchars := normL_chars x.data
  have hup : ∀ c ∈ normL x.data, Char.toUpper c = c := fun c hc => (hchars c hc).1
  have hpunct : ∀ c ∈ normL x.data, isPunctCh c = false := by
    intro c hc
    rcases (hchars c hc).2 with h | rfl
    · exact h
    · exact absurd hc hamp
  have hcol : collapse (normL x.data) = normL x.data := by
    have e : normL x.data =
        collapse (replPairs.foldl (fun acc pr => pyReplace acc pr.1 pr.2)
          (((x.data).map Char.toUpper).map (fun c => if isPunctCh c then ' ' else c))) := rfl
    rw [e]
    exact collapse_idem _
  have hmain : normL (normL x.data) = normL x.data :=
    normL_of_stable _ hup hpunct h1 h2 h3 h4 h5 h6 hcol
  have e1 : normalize_company_name (some (normalize_company_name (some x))) =
      String.mk (normL (normalize_company_name (some x)).data) := by
    rw [normalize_company_name]
  rw [e1, hdata, hmain]
  rw [show normalize_company_name (some x) = String.mk (normL x.data) from by
    rw [normalize_company_name]]

/-- Witness for the amended C4: the normalized scenario name is a fixed
point of a second normalization. -/
theorem normalize_idem_on_stable_witness :
    normalize_company_name (some (normalize_company_name (some bobsName))) =
      normalize_company_name (some bobsName) :=
  normalize_idem_on_stable bobsName (by decide) (by decide) (by decide) (by decide)
    (by decide) (by decide) (by decide)
